import Mathlib

/-!
# Verification of the heredity inference engine (`heredity.py`)

Shallow embedding of the heredity Bayesian-network inference program.
Python floats are modelled as exact rationals (`ℚ`); every numeric literal
of the source (`0.01`, `0.96`, …) is the exact rational it denotes.
Python sets of names are modelled as `Finset String`; the `people`
dictionary is modelled as an association list `List (String × Person)`
(iteration order is the dictionary's insertion order; keys are distinct).
-/

namespace Heredity

/-- A person record, as produced by `load_data`: optional mother and father
names and optional trait evidence (`None` when the trait is unknown). -/
structure Person where
  mother : Option String
  father : Option String
  trait  : Option Bool
deriving DecidableEq, Repr

/-- The global `PROBS` configuration of the source: the unconditional gene
prior, the trait-given-gene table and the mutation constant.  It is modelled
as an explicit value so that runs of the program under a modified global
configuration can be compared. -/
structure Probs where
  gene : Nat → ℚ
  trait : Nat → Bool → ℚ
  mutation : ℚ

/-- The concrete `PROBS` dictionary of the source. -/
def PROBS : Probs where
  gene := fun g =>
    match g with
    | 2 => 1/100
    | 1 => 3/100
    | 0 => 96/100
    | _ => 0
  trait := fun g t =>
    match g, t with
    | 2, true => 65/100
    | 2, false => 35/100
    | 1, true => 56/100
    | 1, false => 44/100
    | 0, true => 1/100
    | 0, false => 99/100
    | _, _ => 0
  mutation := 1/100

/-- The local `parent` dictionary of `prob_table`: for a parent with `g`
copies, the probability that the parent passes the variant allele on.
The three values are hardcoded in the source (`{0: 0.01, 1: 0.50, 2: 0.99}`).
Keys outside `{0,1,2}` do not occur in the source dictionary. -/
def parent_pass : Nat → ℚ
  | 0 => 1/100
  | 1 => 1/2
  | 2 => 99/100
  | _ => 0

/-- `prob_table()` of the source: the child-gene distribution table.  The
source builds a dictionary `table[mg, fg] = {0: a, 1: b, 2: c}` for
`mg, fg in range(3)`; it is embedded as a curried function of
`(mg, fg, child)`.  The `probs` argument models the ambient global
configuration of a run; the source function reads none of it (its `parent`
dictionary is hardcoded), which the definition reflects by ignoring it. -/
def prob_table (_probs : Probs) (mg fg child : Nat) : ℚ :=
  let a := (1 - parent_pass mg) * (1 - parent_pass fg)
  let b := parent_pass mg * (1 - parent_pass fg) + (1 - parent_pass mg) * parent_pass fg
  let c := parent_pass mg * parent_pass fg
  match child with
  | 0 => a
  | 1 => b
  | 2 => c
  | _ => 0

/-- Python membership test `o in s` where `o` is an optional name and `s` a
set of names: `None` is never a member of a set of strings. -/
def optMem (o : Option String) (s : Finset String) : Bool :=
  match o with
  | some x => decide (x ∈ s)
  | none => false

/-- The contribution of one person to `joint_probability`: the body of the
`for person, value in people.items()` loop of the source, with its exact
branch structure (parentless vs. child, then trait membership, then gene
membership; every leaf computes `pt * pg` in the source's order). -/
def person_factor (probs : Probs) (person : String) (value : Person)
    (one_gene two_genes have_trait : Finset String) : ℚ :=
  if value.mother = none ∧ value.father = none then
    -- person has no known parents
    if person ∈ have_trait then
      if person ∈ one_gene then probs.trait 1 true * probs.gene 1
      else if person ∈ two_genes then probs.trait 2 true * probs.gene 2
      else probs.trait 0 true * probs.gene 0
    else
      if person ∈ one_gene then probs.trait 1 false * probs.gene 1
      else if person ∈ two_genes then probs.trait 2 false * probs.gene 2
      else probs.trait 0 false * probs.gene 0
  else
    -- person is a child: look up both parents' hypothesized copies
    let mg : Nat := if optMem value.mother one_gene then 1
      else if optMem value.mother two_genes then 2 else 0
    let fg : Nat := if optMem value.father one_gene then 1
      else if optMem value.father two_genes then 2 else 0
    if person ∈ have_trait then
      if person ∈ one_gene then probs.trait 1 true * prob_table probs mg fg 1
      else if person ∈ two_genes then probs.trait 2 true * prob_table probs mg fg 2
      else probs.trait 0 true * prob_table probs mg fg 0
    else
      if person ∈ one_gene then probs.trait 1 false * prob_table probs mg fg 1
      else if person ∈ two_genes then probs.trait 2 false * prob_table probs mg fg 2
      else probs.trait 0 false * prob_table probs mg fg 0

/-- `joint_probability(people, one_gene, two_genes, have_trait)`: the product,
over every entry of the `people` dictionary, of that person's factor
(the source starts from `joint_p = 1` and multiplies each `p` in). -/
def joint_probability (probs : Probs) (people : List (String × Person))
    (one_gene two_genes have_trait : Finset String) : ℚ :=
  (people.map (fun pv => person_factor probs pv.1 pv.2 one_gene two_genes have_trait)).prod

/-- `powerset(s)`: the list of all subsets of `s`.  The source materializes
every combination of every size; for a duplicate-free name list this yields
each subset exactly once, which the structural recursion reproduces
(subsets without the head, then subsets with the head inserted). -/
def powerset : List String → List (Finset String)
  | [] => [∅]
  | x :: rest => powerset rest ++ (powerset rest).map (fun s => insert x s)

/-- The `fails_evidence` test of `main`: the candidate trait set contradicts
some person's recorded trait evidence (`trait is not None and
trait != (person in have_trait)`). -/
def fails_evidence (people : List (String × Person)) (have_trait : Finset String) : Bool :=
  people.any (fun pv =>
    match pv.2.trait with
    | none => false
    | some t => t != decide (pv.1 ∈ have_trait))

/-- The sum of `joint_probability` over the entire outer enumeration of
`main` — every `have_trait` subset of the population, crossed with every
`one_gene` subset and every `two_genes` subset of the remaining names —
with no evidence filtering. -/
def enum_sum (probs : Probs) (people : List (String × Person)) : ℚ :=
  let names := people.map Prod.fst
  ((powerset names).map (fun have_trait =>
    ((powerset names).map (fun one_gene =>
      ((powerset (names.filter (fun x => decide (x ∉ one_gene)))).map (fun two_genes =>
        joint_probability probs people one_gene two_genes have_trait)).sum)).sum)).sum

/-- One person's accumulator entry of `main`'s `probabilities` dictionary:
the three gene buckets (created in key order `2, 1, 0`) and the two trait
buckets (key order `True, False`). -/
structure DistTable where
  gene2 : ℚ
  gene1 : ℚ
  gene0 : ℚ
  traitT : ℚ
  traitF : ℚ
deriving DecidableEq, Repr

/-- The initial accumulator entry: every bucket is `0`. -/
def initDist : DistTable := ⟨0, 0, 0, 0, 0⟩

/-- The body of `update`'s loop for one person: add the joint probability
`p` into the trait bucket and gene bucket selected by the hypothesis,
with the source's branch structure. -/
def update_one (d : DistTable) (person : String)
    (one_gene two_genes have_trait : Finset String) (p : ℚ) : DistTable :=
  if person ∈ have_trait then
    if person ∈ one_gene then { d with traitT := d.traitT + p, gene1 := d.gene1 + p }
    else if person ∈ two_genes then { d with traitT := d.traitT + p, gene2 := d.gene2 + p }
    else { d with traitT := d.traitT + p, gene0 := d.gene0 + p }
  else
    if person ∈ one_gene then { d with traitF := d.traitF + p, gene1 := d.gene1 + p }
    else if person ∈ two_genes then { d with traitF := d.traitF + p, gene2 := d.gene2 + p }
    else { d with traitF := d.traitF + p, gene0 := d.gene0 + p }

/-- `update(probabilities, one_gene, two_genes, have_trait, p)`: every
person's entry is updated in place; modelled functionally as a map over the
association list. -/
def update (probabilities : List (String × DistTable))
    (one_gene two_genes have_trait : Finset String) (p : ℚ) : List (String × DistTable) :=
  probabilities.map (fun pd => (pd.1, update_one pd.2 pd.1 one_gene two_genes have_trait p))

/-- The sum of one person's gene buckets, in the dictionary's key order. -/
def geneSum (d : DistTable) : ℚ := d.gene2 + d.gene1 + d.gene0

/-- The sum of one person's trait buckets, in the dictionary's key order. -/
def traitSum (d : DistTable) : ℚ := d.traitT + d.traitF

/-- The body of `normalize`'s loop for one person: compute the two scaling
factors `1 / sum(...)` and multiply every bucket by its factor.
(Python raises `ZeroDivisionError` on a zero sum; `ℚ` makes `1/0 = 0`, so
the embedding is used only under nonzero-sum hypotheses.) -/
def normalize_one (d : DistTable) : DistTable :=
  let scale_gene := 1 / geneSum d
  let scale_trait := 1 / traitSum d
  { gene2 := d.gene2 * scale_gene
    gene1 := d.gene1 * scale_gene
    gene0 := d.gene0 * scale_gene
    traitT := d.traitT * scale_trait
    traitF := d.traitF * scale_trait }

/-- `normalize(probabilities)`: every person's two distributions are
rescaled by the inverse of their sums. -/
def normalize (probabilities : List (String × DistTable)) : List (String × DistTable) :=
  probabilities.map (fun pd => (pd.1, normalize_one pd.2))

/-- The body of `main`'s outer loop for one candidate trait set: skip it
when it fails evidence (`continue`), otherwise run the nested gene
enumeration, accumulating each hypothesis's joint probability. -/
def process_trait_hyp (probs : Probs) (people : List (String × Person))
    (names : List String) (probabilities : List (String × DistTable))
    (have_trait : Finset String) : List (String × DistTable) :=
  if fails_evidence people have_trait then probabilities
  else
    (powerset names).foldl (fun acc one_gene =>
      (powerset (names.filter (fun x => decide (x ∉ one_gene)))).foldl (fun acc two_genes =>
        update acc one_gene two_genes have_trait
          (joint_probability probs people one_gene two_genes have_trait)) acc) probabilities

/-- The inference pipeline of `main` (excluding I/O): initialize the
accumulator, enumerate trait sets, filter by evidence, enumerate gene
hypotheses, accumulate joint probabilities, and normalize. -/
def run_inference (probs : Probs) (people : List (String × Person)) :
    List (String × DistTable) :=
  let names := people.map Prod.fst
  let init := people.map (fun pv => (pv.1, initDist))
  normalize ((powerset names).foldl (process_trait_hyp probs people names) init)

/-! ### Claim-side (specification) definitions -/

/-- A person's hypothesized gene count under a gene hypothesis, as the spec
words it: `1` if the person is in `one_gene`, `2` if in `two_genes`, else `0`. -/
def personGene (one_gene two_genes : Finset String) (person : String) : Nat :=
  if person ∈ one_gene then 1 else if person ∈ two_genes then 2 else 0

/-- A parent reference's hypothesized gene count, as the spec words it:
`0` when the reference is absent (an absent parent is a member of neither
set), otherwise the referenced name's count. -/
def parentGene (one_gene two_genes : Finset String) (parent : Option String) : Nat :=
  match parent with
  | some name => personGene one_gene two_genes name
  | none => 0

/-- The per-person contribution to the joint probability as the spec words
it: the gene-count factor (prior for a person whose mother and father are
both absent, child-table entry otherwise) times the trait factor. -/
def spec_person_factor (probs : Probs) (person : String) (value : Person)
    (one_gene two_genes have_trait : Finset String) : ℚ :=
  let g := personGene one_gene two_genes person
  let t := person ∈ have_trait
  (if value.mother = none ∧ value.father = none then probs.gene g
   else prob_table probs (parentGene one_gene two_genes value.mother)
     (parentGene one_gene two_genes value.father) g)
  * probs.trait g t

/-! ### Pedigree well-formedness predicates -/

/-- A name is fresh for a pedigree when it is neither a member's name nor
referenced as anyone's mother or father. -/
def FreshName (x : String) (people : List (String × Person)) : Prop :=
  ∀ pv ∈ people, pv.1 ≠ x ∧ pv.2.mother ≠ some x ∧ pv.2.father ≠ some x

/-- The claim's pedigree condition: each person has either both parents
present and resolving to pedigree members, or neither parent. -/
def ParentsWellFormed (people : List (String × Person)) : Prop :=
  ∀ pv ∈ people,
    (pv.2.mother = none ∧ pv.2.father = none) ∨
    ((∃ m ∈ people.map Prod.fst, pv.2.mother = some m) ∧
     (∃ f ∈ people.map Prod.fst, pv.2.father = some f))

/-- A parent reference that resolves among the people listed after the
referring person. -/
def ParentResolvesLater (o : Option String) (rest : List (String × Person)) : Prop :=
  match o with
  | none => True
  | some m => m ∈ rest.map Prod.fst

/-- The pedigree list is topologically ordered children-first: every parent
reference points to a person listed strictly later.  Equivalently, the
parent relation is acyclic and the list realizes a reverse topological
order. -/
def ChildrenFirst : List (String × Person) → Prop
  | [] => True
  | pv :: rest =>
    ParentResolvesLater pv.2.mother rest ∧ ParentResolvesLater pv.2.father rest ∧
    ChildrenFirst rest

instance (o : Option String) (rest : List (String × Person)) :
    Decidable (ParentResolvesLater o rest) := by
  cases o with
  | none => exact isTrue trivial
  | some m => exact inferInstanceAs (Decidable (m ∈ rest.map Prod.fst))

instance ChildrenFirst.dec : (l : List (String × Person)) → Decidable (ChildrenFirst l)
  | [] => isTrue trivial
  | _pv :: rest =>
    have : Decidable (ChildrenFirst rest) := ChildrenFirst.dec rest
    inferInstanceAs (Decidable (_ ∧ _ ∧ _))

/-! ### The source factor coincides with the claim-side factor -/

/-- The nested membership conditionals computing a parent's gene count in
the child branch of `joint_probability` compute `parentGene`. -/
lemma optMem_count_eq_parentGene (o : Option String) (one_gene two_genes : Finset String) :
    (if optMem o one_gene then 1 else if optMem o two_genes then 2 else 0 : Nat) =
      parentGene one_gene two_genes o := by
  cases o <;> simp [optMem, parentGene, personGene]

/-- The source's per-person branch structure computes exactly the
spec-side factor (gene-count factor times trait factor). -/
lemma person_factor_eq_spec (probs : Probs) (person : String) (value : Person)
    (one_gene two_genes have_trait : Finset String) :
    person_factor probs person value one_gene two_genes have_trait =
      spec_person_factor probs person value one_gene two_genes have_trait := by
  unfold person_factor spec_person_factor
  rw [optMem_count_eq_parentGene, optMem_count_eq_parentGene]
  by_cases hp : value.mother = none ∧ value.father = none <;>
    by_cases ht : person ∈ have_trait <;>
      by_cases h1 : person ∈ one_gene <;>
        by_cases h2 : person ∈ two_genes <;>
          simp [hp, ht, h1, h2, personGene, mul_comm]

/-- `joint_probability` over a `cons` pedigree splits off the head's factor. -/
lemma joint_probability_cons (probs : Probs) (n : String) (v : Person)
    (rest : List (String × Person)) (one_gene two_genes have_trait : Finset String) :
    joint_probability probs ((n, v) :: rest) one_gene two_genes have_trait =
      spec_person_factor probs n v one_gene two_genes have_trait *
        joint_probability probs rest one_gene two_genes have_trait := by
  simp [joint_probability, person_factor_eq_spec]

/-- `joint_probability` as the product of the spec-side factors. -/
lemma joint_probability_eq_spec_prod (probs : Probs) (people : List (String × Person))
    (one_gene two_genes have_trait : Finset String) :
    joint_probability probs people one_gene two_genes have_trait =
      (people.map (fun pv =>
        spec_person_factor probs pv.1 pv.2 one_gene two_genes have_trait)).prod := by
  simp [joint_probability, person_factor_eq_spec]

/-! ### Invariance under names foreign to the pedigree -/

lemma personGene_insert_one {p x : String} (one_gene two_genes : Finset String)
    (hne : p ≠ x) :
    personGene (insert x one_gene) two_genes p = personGene one_gene two_genes p := by
  simp [personGene, Finset.mem_insert, hne]

lemma personGene_insert_two {p x : String} (one_gene two_genes : Finset String)
    (hne : p ≠ x) :
    personGene one_gene (insert x two_genes) p = personGene one_gene two_genes p := by
  simp [personGene, Finset.mem_insert, hne]

lemma parentGene_insert_one {o : Option String} {x : String}
    (one_gene two_genes : Finset String) (hne : o ≠ some x) :
    parentGene (insert x one_gene) two_genes o = parentGene one_gene two_genes o := by
  cases o with
  | none => rfl
  | some m => simp only [parentGene]; exact personGene_insert_one _ _ (by simpa using hne)

lemma parentGene_insert_two {o : Option String} {x : String}
    (one_gene two_genes : Finset String) (hne : o ≠ some x) :
    parentGene one_gene (insert x two_genes) o = parentGene one_gene two_genes o := by
  cases o with
  | none => rfl
  | some m => simp only [parentGene]; exact personGene_insert_two _ _ (by simpa using hne)

/-- Inserting a foreign name into `one_gene` does not change a person's
spec-side factor. -/
lemma spec_person_factor_insert_one (probs : Probs) {p x : String} {v : Person}
    (one_gene two_genes have_trait : Finset String)
    (hp : p ≠ x) (hm : v.mother ≠ some x) (hf : v.father ≠ some x) :
    spec_person_factor probs p v (insert x one_gene) two_genes have_trait =
      spec_person_factor probs p v one_gene two_genes have_trait := by
  unfold spec_person_factor
  rw [personGene_insert_one _ _ hp, parentGene_insert_one _ _ hm,
    parentGene_insert_one _ _ hf]

/-- Inserting a foreign name into `two_genes` does not change a person's
spec-side factor. -/
lemma spec_person_factor_insert_two (probs : Probs) {p x : String} {v : Person}
    (one_gene two_genes have_trait : Finset String)
    (hp : p ≠ x) (hm : v.mother ≠ some x) (hf : v.father ≠ some x) :
    spec_person_factor probs p v one_gene (insert x two_genes) have_trait =
      spec_person_factor probs p v one_gene two_genes have_trait := by
  unfold spec_person_factor
  rw [personGene_insert_two _ _ hp, parentGene_insert_two _ _ hm,
    parentGene_insert_two _ _ hf]

/-- Inserting a foreign name into `have_trait` does not change a person's
spec-side factor. -/
lemma spec_person_factor_insert_trait (probs : Probs) {p x : String} {v : Person}
    (one_gene two_genes have_trait : Finset String) (hp : p ≠ x) :
    spec_person_factor probs p v one_gene two_genes (insert x have_trait) =
      spec_person_factor probs p v one_gene two_genes have_trait := by
  unfold spec_person_factor
  simp [Finset.mem_insert, hp]

/-- Inserting a name that is neither a member nor a referenced parent into
`one_gene` does not change the joint probability. -/
lemma joint_probability_insert_one (probs : Probs) {x : String}
    {people : List (String × Person)} (hx : FreshName x people)
    (one_gene two_genes have_trait : Finset String) :
    joint_probability probs people (insert x one_gene) two_genes have_trait =
      joint_probability probs people one_gene two_genes have_trait := by
  rw [joint_probability_eq_spec_prod, joint_probability_eq_spec_prod]
  refine congrArg List.prod (List.map_congr_left fun pv hpv => ?_)
  obtain ⟨hp, hm, hf⟩ := hx pv hpv
  exact spec_person_factor_insert_one probs _ _ _ hp hm hf

/-- Inserting a name that is neither a member nor a referenced parent into
`two_genes` does not change the joint probability. -/
lemma joint_probability_insert_two (probs : Probs) {x : String}
    {people : List (String × Person)} (hx : FreshName x people)
    (one_gene two_genes have_trait : Finset String) :
    joint_probability probs people one_gene (insert x two_genes) have_trait =
      joint_probability probs people one_gene two_genes have_trait := by
  rw [joint_probability_eq_spec_prod, joint_probability_eq_spec_prod]
  refine congrArg List.prod (List.map_congr_left fun pv hpv => ?_)
  obtain ⟨hp, hm, hf⟩ := hx pv hpv
  exact spec_person_factor_insert_two probs _ _ _ hp hm hf

/-- Inserting a name that is neither a member nor a referenced parent into
`have_trait` does not change the joint probability. -/
lemma joint_probability_insert_trait (probs : Probs) {x : String}
    {people : List (String × Person)} (hx : FreshName x people)
    (one_gene two_genes have_trait : Finset String) :
    joint_probability probs people one_gene two_genes (insert x have_trait) =
      joint_probability probs people one_gene two_genes have_trait := by
  rw [joint_probability_eq_spec_prod, joint_probability_eq_spec_prod]
  refine congrArg List.prod (List.map_congr_left fun pv hpv => ?_)
  obtain ⟨hp, _, _⟩ := hx pv hpv
  exact spec_person_factor_insert_trait probs _ _ _ hp

/-! ### Powerset sums -/

/-- Splitting the powerset of a `cons` into subsets without and with the
head. -/
lemma sum_powerset_cons (x : String) (l : List String) (f : Finset String → ℚ) :
    ((powerset (x :: l)).map f).sum =
      ((powerset l).map f).sum + ((powerset l).map (fun s => f (insert x s))).sum := by
  simp only [powerset, List.map_append, List.sum_append, List.map_map]
  rfl

/-- Every set produced by `powerset l` only contains elements of `l`. -/
lemma mem_of_mem_powerset {l : List String} {s : Finset String}
    (hs : s ∈ powerset l) : ∀ a ∈ s, a ∈ l := by
  induction l generalizing s with
  | nil =>
    simp only [powerset, List.mem_singleton] at hs
    simp [hs]
  | cons x rest ih =>
    simp only [powerset, List.mem_append, List.mem_map] at hs
    rcases hs with hs | ⟨t, ht, rfl⟩
    · exact fun a ha => List.mem_cons_of_mem x (ih hs a ha)
    · intro a ha
      rcases Finset.mem_insert.mp ha with rfl | ha
      · exact List.mem_cons_self _ _
      · exact List.mem_cons_of_mem x (ih ht a ha)

/-- Pointwise addition distributes over a mapped list sum. -/
lemma sum_map_add {α : Type} (l : List α) (f g : α → ℚ) :
    (l.map (fun a => f a + g a)).sum = (l.map f).sum + (l.map g).sum := by
  induction l with
  | nil => simp
  | cons a l ih => simp [ih]; ring

/-! ### Row sums of the model tables -/

/-- Every row of the child-gene table sums to `1`: the three entries are
`(1-pm)(1-pf)`, `pm(1-pf)+(1-pm)pf` and `pm·pf`. -/
lemma prob_table_row_sum (probs : Probs) (mg fg : Nat) :
    prob_table probs mg fg 0 + prob_table probs mg fg 1 + prob_table probs mg fg 2 = 1 := by
  simp only [prob_table]
  ring

/-- A children-first pedigree never references a non-member name as a
parent, so a name outside the member list is fresh for the pedigree. -/
lemma parentResolvesLater_ne {o : Option String} {rest : List (String × Person)}
    {x : String} (h : ParentResolvesLater o rest) (hx : x ∉ rest.map Prod.fst) :
    o ≠ some x := by
  cases o with
  | none => simp
  | some m =>
    simp only [ParentResolvesLater] at h
    intro hc
    obtain rfl : m = x := by injection hc
    exact hx h

lemma freshName_of_children_first {l : List (String × Person)} {x : String}
    (hcf : ChildrenFirst l) (hx : x ∉ l.map Prod.fst) : FreshName x l := by
  induction l with
  | nil => intro pv h; cases h
  | cons pv rest ih =>
    obtain ⟨hm, hf, hrest⟩ := hcf
    simp only [List.map_cons, List.mem_cons, not_or] at hx
    obtain ⟨hx1, hx2⟩ := hx
    intro qv hq
    rcases List.mem_cons.mp hq with rfl | hq
    · exact ⟨fun h => hx1 h.symm, parentResolvesLater_ne hm hx2,
        parentResolvesLater_ne hf hx2⟩
    · exact ih hrest hx2 qv hq

/-- The six ways the outer enumeration extends a hypothesis over the rest
of the population to the new person `n` (gene count `0`, `1` or `2`,
crossed with trait membership) contribute factors summing to `1`. -/
lemma six_factor_sum (v : Person) (n : String) (og tg ht : Finset String)
    (hog : n ∉ og) (htg : n ∉ tg) (hht : n ∉ ht)
    (hm : v.mother ≠ some n) (hf : v.father ≠ some n) :
    spec_person_factor PROBS n v og tg ht
    + spec_person_factor PROBS n v (insert n og) tg ht
    + spec_person_factor PROBS n v og (insert n tg) ht
    + spec_person_factor PROBS n v og tg (insert n ht)
    + spec_person_factor PROBS n v (insert n og) tg (insert n ht)
    + spec_person_factor PROBS n v og (insert n tg) (insert n ht) = 1 := by
  have e0 : personGene og tg n = 0 := by simp [personGene, hog, htg]
  have e1 : personGene (insert n og) tg n = 1 := by simp [personGene]
  have e2 : personGene og (insert n tg) n = 2 := by simp [personGene, hog]
  have dd1 : decide (n ∈ ht) = false := decide_eq_false hht
  have dd2 : decide (n ∈ insert n ht) = true := decide_eq_true (Finset.mem_insert_self n ht)
  unfold spec_person_factor
  simp only [e0, e1, e2, parentGene_insert_one _ _ hm, parentGene_insert_one _ _ hf,
    parentGene_insert_two _ _ hm, parentGene_insert_two _ _ hf, dd1, dd2]
  by_cases hpar : v.mother = none ∧ v.father = none
  · simp only [if_pos hpar]
    norm_num [PROBS]
  · simp only [if_neg hpar]
    have hrow := prob_table_row_sum PROBS (parentGene og tg v.mother)
      (parentGene og tg v.father)
    have t0T : PROBS.trait 0 true = 1/100 := rfl
    have t0F : PROBS.trait 0 false = 99/100 := rfl
    have t1T : PROBS.trait 1 true = 56/100 := rfl
    have t1F : PROBS.trait 1 false = 44/100 := rfl
    have t2T : PROBS.trait 2 true = 65/100 := rfl
    have t2F : PROBS.trait 2 false = 35/100 := rfl
    rw [t0T, t0F, t1T, t1F, t2T, t2F]
    linear_combination hrow

/-! ### The outer enumeration decomposed into its three nested loops -/

/-- The innermost loop of the enumeration: summing the joint probability
over every `two_genes` subset of the names not in `one_gene`. -/
def sumTwo (probs : Probs) (people : List (String × Person)) (names : List String)
    (one_gene have_trait : Finset String) : ℚ :=
  ((powerset (names.filter (fun x => decide (x ∉ one_gene)))).map
    (fun two_genes => joint_probability probs people one_gene two_genes have_trait)).sum

/-- The middle loop: summing over every `one_gene` subset of the names. -/
def sumOne (probs : Probs) (people : List (String × Person)) (names : List String)
    (have_trait : Finset String) : ℚ :=
  ((powerset names).map (fun one_gene => sumTwo probs people names one_gene have_trait)).sum

/-- The outer loop: summing over every `have_trait` subset, with no
evidence filtering. -/
def sumTrait (probs : Probs) (people : List (String × Person)) (names : List String) : ℚ :=
  ((powerset names).map (fun have_trait => sumOne probs people names have_trait)).sum

lemma enum_sum_eq_sumTrait (probs : Probs) (people : List (String × Person)) :
    enum_sum probs people = sumTrait probs people (people.map Prod.fst) := rfl

lemma sum_map_add_congr {α : Type} (L : List α) (f1 f2 g : α → ℚ)
    (h : ∀ x ∈ L, f1 x + f2 x = g x) :
    (L.map f1).sum + (L.map f2).sum = (L.map g).sum := by
  induction L with
  | nil => simp
  | cons a L ih =>
    have ha := h a (List.mem_cons_self a L)
    have IH := ih fun x hx => h x (List.mem_cons_of_mem _ hx)
    simp only [List.map_cons, List.sum_cons]
    linarith

lemma sum_map_add4_congr {α : Type} (L : List α) (f1 f2 f3 f4 g : α → ℚ)
    (h : ∀ x ∈ L, f1 x + f2 x + (f3 x + f4 x) = g x) :
    (L.map f1).sum + (L.map f2).sum + ((L.map f3).sum + (L.map f4).sum) = (L.map g).sum := by
  induction L with
  | nil => simp
  | cons a L ih =>
    have ha := h a (List.mem_cons_self a L)
    have IH := ih fun x hx => h x (List.mem_cons_of_mem _ hx)
    simp only [List.map_cons, List.sum_cons]
    linarith

lemma sum_map_add6_congr {α : Type} (L : List α) (f1 f2 f3 f4 f5 f6 g : α → ℚ)
    (h : ∀ x ∈ L, f1 x + f2 x + f3 x + f4 x + f5 x + f6 x = g x) :
    (L.map f1).sum + (L.map f2).sum + (L.map f3).sum + (L.map f4).sum +
      (L.map f5).sum + (L.map f6).sum = (L.map g).sum := by
  induction L with
  | nil => simp
  | cons a L ih =>
    have ha := h a (List.mem_cons_self a L)
    have IH := ih fun x hx => h x (List.mem_cons_of_mem _ hx)
    simp only [List.map_cons, List.sum_cons]
    linarith

/-- With the new name `n` absent from `one_gene`, the `two_genes`
candidates over `n :: names'` split into those without and with `n`. -/
lemma sumTwo_cons {probs : Probs} {people : List (String × Person)}
    {n : String} {names' : List String} {one_gene have_trait : Finset String}
    (hog : n ∉ one_gene) :
    sumTwo probs people (n :: names') one_gene have_trait =
      ((powerset (names'.filter (fun x => decide (x ∉ one_gene)))).map
        (fun tg => joint_probability probs people one_gene tg have_trait)).sum +
      ((powerset (names'.filter (fun x => decide (x ∉ one_gene)))).map
        (fun tg => joint_probability probs people one_gene (insert n tg) have_trait)).sum := by
  unfold sumTwo
  rw [List.filter_cons_of_pos (p := fun x => decide (x ∉ one_gene)) (by simp [hog]),
    sum_powerset_cons]

/-- With `n` placed in `one_gene`, the `two_genes` candidates over
`n :: names'` are exactly those over `names'` not in the old `one_gene`. -/
lemma sumTwo_cons_insert {probs : Probs} {people : List (String × Person)}
    {n : String} {names' : List String} {one_gene have_trait : Finset String}
    (hn : n ∉ names') :
    sumTwo probs people (n :: names') (insert n one_gene) have_trait =
      ((powerset (names'.filter (fun x => decide (x ∉ one_gene)))).map
        (fun tg => joint_probability probs people (insert n one_gene) tg have_trait)).sum := by
  unfold sumTwo
  rw [List.filter_cons_of_neg (p := fun x => decide (x ∉ insert n one_gene)) (by simp),
    List.filter_congr]
  intro x hx
  have hxn : x ≠ n := fun h => hn (h ▸ hx)
  simp [Finset.mem_insert, hxn]

/-- Total mass of the unfiltered outer enumeration over a children-first,
duplicate-free pedigree: exactly `1`. -/
lemma sumTrait_eq_one : ∀ people : List (String × Person),
    ChildrenFirst people → (people.map Prod.fst).Nodup →
    sumTrait PROBS people (people.map Prod.fst) = 1 := by
  intro people
  induction people with
  | nil =>
    intro _ _
    simp [sumTrait, sumOne, sumTwo, powerset, joint_probability]
  | cons pv rest ih =>
    obtain ⟨n, v⟩ := pv
    intro hcf hnd
    obtain ⟨hmres, hfres, hcfrest⟩ := hcf
    simp only [List.map_cons, List.nodup_cons] at hnd
    obtain ⟨hn, hnd'⟩ := hnd
    have hfresh : FreshName n rest := freshName_of_children_first hcfrest hn
    have hm : v.mother ≠ some n := parentResolvesLater_ne hmres hn
    have hf : v.father ≠ some n := parentResolvesLater_ne hfres hn
    -- the per-(trait set, one-gene set) collapse of the four split pieces
    have key : ∀ ht' ∈ powerset (rest.map Prod.fst),
        ∀ og' ∈ powerset (rest.map Prod.fst),
        sumTwo PROBS ((n, v) :: rest) (n :: rest.map Prod.fst) og' ht' +
          sumTwo PROBS ((n, v) :: rest) (n :: rest.map Prod.fst) (insert n og') ht' +
          (sumTwo PROBS ((n, v) :: rest) (n :: rest.map Prod.fst) og' (insert n ht') +
            sumTwo PROBS ((n, v) :: rest) (n :: rest.map Prod.fst) (insert n og')
              (insert n ht')) =
          sumTwo PROBS rest (rest.map Prod.fst) og' ht' := by
      intro ht' hht'mem og' hog'mem
      have hht' : n ∉ ht' := fun h => hn (mem_of_mem_powerset hht'mem n h)
      have hog' : n ∉ og' := fun h => hn (mem_of_mem_powerset hog'mem n h)
      rw [sumTwo_cons hog', sumTwo_cons_insert hn, sumTwo_cons hog', sumTwo_cons_insert hn]
      have inner : ∀ tg' ∈ powerset ((rest.map Prod.fst).filter
          (fun x => decide (x ∉ og'))),
          joint_probability PROBS ((n, v) :: rest) og' tg' ht' +
          joint_probability PROBS ((n, v) :: rest) og' (insert n tg') ht' +
          joint_probability PROBS ((n, v) :: rest) (insert n og') tg' ht' +
          joint_probability PROBS ((n, v) :: rest) og' tg' (insert n ht') +
          joint_probability PROBS ((n, v) :: rest) og' (insert n tg') (insert n ht') +
          joint_probability PROBS ((n, v) :: rest) (insert n og') tg' (insert n ht') =
          joint_probability PROBS rest og' tg' ht' := by
        intro tg' htg'mem
        have htg' : n ∉ tg' := fun h =>
          hn (List.mem_of_mem_filter (mem_of_mem_powerset htg'mem n h))
        simp only [joint_probability_cons]
        rw [joint_probability_insert_two PROBS hfresh,
          joint_probability_insert_one PROBS hfresh,
          joint_probability_insert_trait PROBS hfresh,
          joint_probability_insert_trait PROBS hfresh,
          joint_probability_insert_trait PROBS hfresh,
          joint_probability_insert_two PROBS hfresh,
          joint_probability_insert_one PROBS hfresh]
        have hs := six_factor_sum v n og' tg' ht' hog' htg' hht' hm hf
        linear_combination joint_probability PROBS rest og' tg' ht' * hs
      have := sum_map_add6_congr _ _ _ _ _ _ _ _ inner
      unfold sumTwo
      linarith [this]
    -- assemble the middle and outer loops
    show sumTrait PROBS ((n, v) :: rest) (n :: rest.map Prod.fst) = 1
    unfold sumTrait
    rw [sum_powerset_cons]
    rw [sum_map_add_congr _ _ _ (fun ht' => sumOne PROBS rest (rest.map Prod.fst) ht') ?_]
    · exact ih hcfrest hnd'
    · intro ht' hht'mem
      unfold sumOne
      rw [sum_powerset_cons, sum_powerset_cons]
      exact sum_map_add4_congr _ _ _ _ _ _ (fun og' hog'mem => key ht' hht'mem og' hog'mem)

/-! ### Normalization -/

/-- Multiplying by the reciprocal of the sum is division by the sum. -/
lemma normalize_one_eq_div (d : DistTable) :
    normalize_one d =
      ⟨d.gene2 / geneSum d, d.gene1 / geneSum d, d.gene0 / geneSum d,
        d.traitT / traitSum d, d.traitF / traitSum d⟩ := by
  simp [normalize_one, div_eq_mul_inv]

/-- After `normalize_one`, a person's gene buckets sum to `1` provided
their pre-normalization sum was nonzero; likewise for trait buckets. -/
lemma normalize_one_sums (d : DistTable) (hg : geneSum d ≠ 0) (ht : traitSum d ≠ 0) :
    geneSum (normalize_one d) = 1 ∧ traitSum (normalize_one d) = 1 := by
  simp only [normalize_one, geneSum, traitSum, one_div] at hg ht ⊢
  exact ⟨by linear_combination mul_inv_cancel₀ hg, by linear_combination mul_inv_cancel₀ ht⟩

/-! ### Mutation-independence -/

/-- Two configurations agreeing on the gene prior and the trait table give
pointwise equal person factors: the mutation field is never consulted. -/
lemma person_factor_congr_probs (p₁ p₂ : Probs) (hg : p₁.gene = p₂.gene)
    (ht : p₁.trait = p₂.trait) (person : String) (value : Person)
    (one_gene two_genes have_trait : Finset String) :
    person_factor p₁ person value one_gene two_genes have_trait =
      person_factor p₂ person value one_gene two_genes have_trait := by
  have hpt : prob_table p₁ = prob_table p₂ := rfl
  unfold person_factor
  rw [hg, ht, hpt]

/-! ### The enumeration total is independent of the dictionary's order -/

/-- The joint probability is a product over the pedigree entries, hence
invariant under reordering them. -/
lemma joint_probability_perm (probs : Probs) {people people' : List (String × Person)}
    (h : people.Perm people') (one_gene two_genes have_trait : Finset String) :
    joint_probability probs people one_gene two_genes have_trait =
      joint_probability probs people' one_gene two_genes have_trait := by
  unfold joint_probability
  exact (h.map _).prod_eq

/-- Reordering the name list permutes the list of subsets it generates. -/
lemma powerset_perm : ∀ {l l' : List String}, l.Perm l' →
    (powerset l).Perm (powerset l') := by
  intro l l' h
  induction h with
  | nil => exact List.Perm.refl _
  | cons x h ih =>
    simp only [powerset]
    exact ih.append (ih.map _)
  | swap x y l =>
    simp only [powerset, List.map_append, List.map_map]
    have hcomm : ((fun s : Finset String => insert x s) ∘ fun s => insert y s) =
        ((fun s : Finset String => insert y s) ∘ fun s => insert x s) := by
      funext s
      exact Finset.Insert.comm x y s
    rw [hcomm]
    have habcd : ∀ A B C D : List (Finset String),
        (A ++ B ++ (C ++ D)).Perm (A ++ C ++ (B ++ D)) := by
      intro A B C D
      have e1 : A ++ B ++ (C ++ D) = A ++ (B ++ C ++ D) := by simp [List.append_assoc]
      have e2 : A ++ C ++ (B ++ D) = A ++ (C ++ B ++ D) := by simp [List.append_assoc]
      rw [e1, e2]
      exact List.Perm.append_left A (List.Perm.append_right D List.perm_append_comm)
    exact habcd (powerset l) ((powerset l).map _) ((powerset l).map _) ((powerset l).map _)
  | trans _ _ ih1 ih2 => exact ih1.trans ih2

/-- The innermost enumeration sum only depends on the pedigree and the
name list up to reordering. -/
lemma sumTwo_perm (probs : Probs) {people people' : List (String × Person)}
    {names names' : List String} (hp : people.Perm people') (hn : names.Perm names')
    (one_gene have_trait : Finset String) :
    sumTwo probs people names one_gene have_trait =
      sumTwo probs people' names' one_gene have_trait := by
  unfold sumTwo
  rw [List.map_congr_left fun tg _ => joint_probability_perm probs hp one_gene tg have_trait]
  exact ((powerset_perm (hn.filter _)).map _).sum_eq

/-- The middle enumeration sum is reorder-invariant. -/
lemma sumOne_perm (probs : Probs) {people people' : List (String × Person)}
    {names names' : List String} (hp : people.Perm people') (hn : names.Perm names')
    (have_trait : Finset String) :
    sumOne probs people names have_trait = sumOne probs people' names' have_trait := by
  unfold sumOne
  rw [List.map_congr_left fun one_gene _ => sumTwo_perm probs hp hn one_gene have_trait]
  exact ((powerset_perm hn).map _).sum_eq

/-- The total enumeration sum is invariant under reordering the pedigree's
entries: it only depends on the dictionary's contents. -/
lemma enum_sum_perm (probs : Probs) {people people' : List (String × Person)}
    (hp : people.Perm people') : enum_sum probs people = enum_sum probs people' := by
  rw [enum_sum_eq_sumTrait, enum_sum_eq_sumTrait]
  unfold sumTrait
  have hn : (people.map Prod.fst).Perm (people'.map Prod.fst) := hp.map _
  rw [List.map_congr_left fun have_trait _ => sumOne_perm probs hp hn have_trait]
  exact ((powerset_perm hn).map _).sum_eq

/-! ## Claim theorems -/

/-- C1: for every pedigree and every hypothesis, `joint_probability`
returns the product, over every person, of that person's gene-count factor
times their trait factor — prior times trait table for a person whose
mother and father are both absent, child-gene-table entry times trait table
otherwise, with the hypothesized gene counts read off `one_gene` /
`two_genes` membership (absent parents counting `0`). -/
theorem C1_joint_probability_is_factor_product
    (people : List (String × Person)) (one_gene two_genes have_trait : Finset String) :
    joint_probability PROBS people one_gene two_genes have_trait =
      (people.map (fun pv =>
        spec_person_factor PROBS pv.1 pv.2 one_gene two_genes have_trait)).prod :=
  joint_probability_eq_spec_prod PROBS people one_gene two_genes have_trait

/-- C2 (counterexample): the claim's hypothesis — every person has both
parents present and resolving to pedigree members, or neither — is
satisfied by a self-parented pedigree, but the unfiltered enumeration then
sums to `24602/10000`, not `1`. -/
theorem C2_counterexample :
    ParentsWellFormed [("A", ⟨some "A", some "A", none⟩)] ∧
    ([("A", (⟨some "A", some "A", none⟩ : Person))].map Prod.fst).Nodup ∧
    enum_sum PROBS [("A", ⟨some "A", some "A", none⟩)] ≠ 1 := by
  refine ⟨by unfold ParentsWellFormed; decide, by decide, ?_⟩
  norm_num [enum_sum, powerset, joint_probability, person_factor, optMem, prob_table,
    parent_pass, PROBS, Option.some_ne_none]

/-- C2 (amended): for every pedigree in which each person has both parents
present (resolving to pedigree members) or neither, the person names are
distinct, and additionally the parent references are acyclic — some
reordering of the people is children-first, every parent reference
pointing to a later entry — the sum of `joint_probability` over the entire
outer enumeration equals exactly `1`. -/
theorem C2_enum_sum_eq_one (people ordered : List (String × Person))
    (_hwf : ParentsWellFormed people) (hperm : people.Perm ordered)
    (hcf : ChildrenFirst ordered) (hnd : (people.map Prod.fst).Nodup) :
    enum_sum PROBS people = 1 := by
  rw [enum_sum_perm PROBS hperm, enum_sum_eq_sumTrait]
  exact sumTrait_eq_one ordered hcf ((hperm.map Prod.fst).nodup_iff.mp hnd)

/-- C2 witness: a concrete three-person family listed parents-first, as a
pedigree file would, with its children-first reordering. -/
theorem C2_enum_sum_eq_one_witness :
    ParentsWellFormed [("M", ⟨none, none, none⟩), ("F", ⟨none, none, none⟩),
      ("C", ⟨some "M", some "F", none⟩)] ∧
    List.Perm [("M", (⟨none, none, none⟩ : Person)), ("F", ⟨none, none, none⟩),
      ("C", ⟨some "M", some "F", none⟩)]
      [("C", ⟨some "M", some "F", none⟩), ("M", ⟨none, none, none⟩),
        ("F", ⟨none, none, none⟩)] ∧
    ChildrenFirst [("C", (⟨some "M", some "F", none⟩ : Person)),
      ("M", ⟨none, none, none⟩), ("F", ⟨none, none, none⟩)] ∧
    (([("M", (⟨none, none, none⟩ : Person)), ("F", ⟨none, none, none⟩),
      ("C", ⟨some "M", some "F", none⟩)].map Prod.fst)).Nodup ∧
    enum_sum PROBS [("M", ⟨none, none, none⟩), ("F", ⟨none, none, none⟩),
      ("C", ⟨some "M", some "F", none⟩)] = 1 :=
  ⟨by unfold ParentsWellFormed; decide, by decide, by decide, by decide,
    C2_enum_sum_eq_one
      [("M", ⟨none, none, none⟩), ("F", ⟨none, none, none⟩),
        ("C", ⟨some "M", some "F", none⟩)]
      [("C", ⟨some "M", some "F", none⟩), ("M", ⟨none, none, none⟩),
        ("F", ⟨none, none, none⟩)]
      (by unfold ParentsWellFormed; decide) (by decide) (by decide) (by decide)⟩

/-- C3: whenever every person's gene buckets and trait buckets each have a
nonzero sum, `normalize` divides every bucket by its distribution's
pre-normalization sum, and afterwards every person's gene distribution and
trait distribution sum to `1`. -/
theorem C3_normalize_rescales (probabilities : List (String × DistTable))
    (h : ∀ pd ∈ probabilities, geneSum pd.2 ≠ 0 ∧ traitSum pd.2 ≠ 0) :
    normalize probabilities = probabilities.map (fun pd =>
      (pd.1, ⟨pd.2.gene2 / geneSum pd.2, pd.2.gene1 / geneSum pd.2,
        pd.2.gene0 / geneSum pd.2, pd.2.traitT / traitSum pd.2,
        pd.2.traitF / traitSum pd.2⟩)) ∧
    ∀ pd ∈ normalize probabilities, geneSum pd.2 = 1 ∧ traitSum pd.2 = 1 := by
  constructor
  · unfold normalize
    exact List.map_congr_left fun pd _ => by rw [normalize_one_eq_div]
  · intro pd hpd
    unfold normalize at hpd
    obtain ⟨qd, hqd, rfl⟩ := List.mem_map.mp hpd
    exact normalize_one_sums qd.2 (h qd hqd).1 (h qd hqd).2

/-- C3 witness: a concrete accumulator state with nonzero sums. -/
theorem C3_normalize_rescales_witness :
    (∀ pd ∈ [("A", (⟨1, 2, 3, 4, 5⟩ : DistTable))],
      geneSum pd.2 ≠ 0 ∧ traitSum pd.2 ≠ 0) ∧
    (normalize [("A", (⟨1, 2, 3, 4, 5⟩ : DistTable))] =
      [("A", (⟨1, 2, 3, 4, 5⟩ : DistTable))].map (fun pd =>
        (pd.1, ⟨pd.2.gene2 / geneSum pd.2, pd.2.gene1 / geneSum pd.2,
          pd.2.gene0 / geneSum pd.2, pd.2.traitT / traitSum pd.2,
          pd.2.traitF / traitSum pd.2⟩)) ∧
      ∀ pd ∈ normalize [("A", (⟨1, 2, 3, 4, 5⟩ : DistTable))],
        geneSum pd.2 = 1 ∧ traitSum pd.2 = 1) :=
  ⟨by norm_num [geneSum, traitSum],
    C3_normalize_rescales _ (by norm_num [geneSum, traitSum])⟩

/-- C4: every row of the child-gene table — the three entries at a parent
pair `(mg, fg)` in `{0,1,2}²` — sums to exactly `1`. -/
theorem C4_prob_table_rows_sum_to_one (mg fg : Fin 3) :
    prob_table PROBS mg.val fg.val 0 + prob_table PROBS mg.val fg.val 1 +
      prob_table PROBS mg.val fg.val 2 = 1 :=
  prob_table_row_sum PROBS mg.val fg.val

/-- C5: a candidate trait set is rejected by the evidence filter exactly
when some person has recorded (non-`None`) trait evidence differing from
that person's membership in the candidate set. -/
theorem C5_evidence_filter_iff (people : List (String × Person)) (have_trait : Finset String) :
    fails_evidence people have_trait = true ↔
      ∃ pv ∈ people, ∃ b, pv.2.trait = some b ∧ b ≠ decide (pv.1 ∈ have_trait) := by
  unfold fails_evidence
  rw [List.any_eq_true]
  constructor
  · rintro ⟨pv, hpv, hmatch⟩
    cases htr : pv.2.trait with
    | none => rw [htr] at hmatch; simp at hmatch
    | some b =>
      rw [htr] at hmatch
      simp only [bne_iff_ne, ne_eq] at hmatch
      exact ⟨pv, hpv, b, htr, hmatch⟩
  · rintro ⟨pv, hpv, b, htr, hb⟩
    exact ⟨pv, hpv, by rw [htr]; simpa [bne_iff_ne] using hb⟩

/-- C6: the allele-transmission values hardcoded in `prob_table`'s `parent`
dictionary are exactly `g/2·(1-μ) + (1-g/2)·μ` at the model's mutation rate
`μ = 0.01`, i.e. `0.01`, `0.50` and `0.99` for `g = 0, 1, 2`. -/
theorem C6_parent_pass_formula (g : Fin 3) :
    parent_pass g.val =
      (g.val : ℚ)/2 * (1 - PROBS.mutation) + (1 - (g.val : ℚ)/2) * PROBS.mutation := by
  fin_cases g <;> norm_num [parent_pass, PROBS]

/-- C7: for a pedigree of exactly one person with no parents and unknown
trait evidence, the full pipeline returns a normalized gene distribution
exactly equal to the unconditional prior `{0: 0.96, 1: 0.03, 2: 0.01}`. -/
theorem C7_single_person_posterior_is_prior (name : String) :
    (run_inference PROBS [(name, ⟨none, none, none⟩)]).map
      (fun pd => (pd.1, pd.2.gene0, pd.2.gene1, pd.2.gene2)) =
    [(name, PROBS.gene 0, PROBS.gene 1, PROBS.gene 2)] := by
  norm_num [run_inference, process_trait_hyp, powerset, fails_evidence, update, update_one,
    joint_probability, person_factor, normalize, normalize_one, geneSum, traitSum,
    initDist, PROBS]

/-- C8 (counterexample): a hypothesis whose `one_gene` set references the
name `X` outside the one-person pedigree does not fail: `joint_probability`
returns the ordinary probability `0.99 · 0.96`, the same value as for the
hypothesis with the foreign name removed. -/
theorem C8_counterexample :
    joint_probability PROBS [("A", ⟨none, none, none⟩)] {"X"} ∅ ∅ = 9504/10000 ∧
    joint_probability PROBS [("A", ⟨none, none, none⟩)] ∅ ∅ ∅ = 9504/10000 := by
  have hne : ("A" : String) ≠ "X" := by decide
  constructor <;>
    norm_num [joint_probability, person_factor, PROBS, Finset.mem_insert, hne]

/-- C8 (amended): `joint_probability` raises no error on a hypothesis
referencing a name outside the pedigree; it returns the same probability
as the hypothesis with the foreign name removed, whichever of the three
sets mentions it. -/
theorem C8_foreign_name_ignored (probs : Probs) (x : String)
    (people : List (String × Person)) (hx : FreshName x people)
    (one_gene two_genes have_trait : Finset String) :
    joint_probability probs people (insert x one_gene) two_genes have_trait =
      joint_probability probs people one_gene two_genes have_trait ∧
    joint_probability probs people one_gene (insert x two_genes) have_trait =
      joint_probability probs people one_gene two_genes have_trait ∧
    joint_probability probs people one_gene two_genes (insert x have_trait) =
      joint_probability probs people one_gene two_genes have_trait :=
  ⟨joint_probability_insert_one probs hx _ _ _,
    joint_probability_insert_two probs hx _ _ _,
    joint_probability_insert_trait probs hx _ _ _⟩

/-- C8 witness: the name `X` is fresh for the one-person pedigree `[A]`,
and inserting it into any hypothesis set leaves the probability unchanged. -/
theorem C8_foreign_name_ignored_witness :
    FreshName "X" [("A", ⟨none, none, none⟩)] ∧
    (joint_probability PROBS [("A", ⟨none, none, none⟩)] (insert "X" ∅) ∅ ∅ =
      joint_probability PROBS [("A", ⟨none, none, none⟩)] ∅ ∅ ∅ ∧
    joint_probability PROBS [("A", ⟨none, none, none⟩)] ∅ (insert "X" ∅) ∅ =
      joint_probability PROBS [("A", ⟨none, none, none⟩)] ∅ ∅ ∅ ∧
    joint_probability PROBS [("A", ⟨none, none, none⟩)] ∅ ∅ (insert "X" ∅) =
      joint_probability PROBS [("A", ⟨none, none, none⟩)] ∅ ∅ ∅) :=
  ⟨by unfold FreshName; decide,
    C8_foreign_name_ignored PROBS "X" _ (by unfold FreshName; decide) ∅ ∅ ∅⟩

/-- C9: a person record with at least one parent reference — in particular
a half-orphan with exactly one parent absent — is processed by the
known-parents branch without error, and an absent parent reference is
assigned gene count `0`, so the child factor is looked up in the child
table as if the missing parent had zero copies. -/
theorem C9_half_orphan_child_branch (probs : Probs) (n : String) (v : Person)
    (one_gene two_genes have_trait : Finset String)
    (h : (v.mother = none ∧ v.father ≠ none) ∨ (v.mother ≠ none ∧ v.father = none)) :
    person_factor probs n v one_gene two_genes have_trait =
      prob_table probs (parentGene one_gene two_genes v.mother)
        (parentGene one_gene two_genes v.father)
        (personGene one_gene two_genes n) *
        probs.trait (personGene one_gene two_genes n) (decide (n ∈ have_trait)) ∧
    (v.mother = none → parentGene one_gene two_genes v.mother = 0) ∧
    (v.father = none → parentGene one_gene two_genes v.father = 0) := by
  have hpar : ¬(v.mother = none ∧ v.father = none) := by
    rcases h with ⟨_, hf⟩ | ⟨hm, _⟩
    · exact fun hc => hf hc.2
    · exact fun hc => hm hc.1
  refine ⟨?_, fun hm => by rw [hm]; rfl, fun hf => by rw [hf]; rfl⟩
  rw [person_factor_eq_spec]
  simp only [spec_person_factor]
  rw [if_neg hpar]

/-- C9 witness: a concrete record with a mother but no father. -/
theorem C9_half_orphan_child_branch_witness :
    ((some "M" = (none : Option String) ∧ (none : Option String) ≠ none) ∨
      (some "M" ≠ (none : Option String) ∧ (none : Option String) = none)) ∧
    (person_factor PROBS "C" ⟨some "M", none, none⟩ ∅ ∅ ∅ =
      prob_table PROBS (parentGene ∅ ∅ (some "M")) (parentGene ∅ ∅ none)
        (personGene ∅ ∅ "C") *
        PROBS.trait (personGene ∅ ∅ "C") (decide ("C" ∈ (∅ : Finset String))) ∧
    (some "M" = (none : Option String) → parentGene ∅ ∅ (some "M") = 0) ∧
    ((none : Option String) = none → parentGene ∅ ∅ (none : Option String) = 0)) :=
  ⟨by decide, C9_half_orphan_child_branch PROBS "C" ⟨some "M", none, none⟩ ∅ ∅ ∅ (by decide)⟩

/-- C10: two runs differing only in the `PROBS["mutation"]` constant give
identical outputs from `joint_probability` and `prob_table` on every input:
the mutation constant is never read, the transmission probabilities being
hardcoded inside `prob_table`. -/
theorem C10_mutation_never_read (p₁ p₂ : Probs)
    (hg : p₁.gene = p₂.gene) (ht : p₁.trait = p₂.trait) :
    (∀ (people : List (String × Person)) (one_gene two_genes have_trait : Finset String),
      joint_probability p₁ people one_gene two_genes have_trait =
        joint_probability p₂ people one_gene two_genes have_trait) ∧
    prob_table p₁ = prob_table p₂ := by
  refine ⟨fun people one_gene two_genes have_trait => ?_, rfl⟩
  unfold joint_probability
  exact congrArg List.prod (List.map_congr_left fun pv _ =>
    person_factor_congr_probs p₁ p₂ hg ht pv.1 pv.2 one_gene two_genes have_trait)

/-- C10 witness: the concrete configuration with the mutation constant
replaced by `0` yields identical outputs. -/
theorem C10_mutation_never_read_witness :
    PROBS.gene = (⟨PROBS.gene, PROBS.trait, 0⟩ : Probs).gene ∧
    PROBS.trait = (⟨PROBS.gene, PROBS.trait, 0⟩ : Probs).trait ∧
    ((∀ (people : List (String × Person)) (one_gene two_genes have_trait : Finset String),
      joint_probability PROBS people one_gene two_genes have_trait =
        joint_probability (⟨PROBS.gene, PROBS.trait, 0⟩ : Probs)
          people one_gene two_genes have_trait) ∧
    prob_table PROBS = prob_table (⟨PROBS.gene, PROBS.trait, 0⟩ : Probs)) :=
  ⟨rfl, rfl, C10_mutation_never_read PROBS ⟨PROBS.gene, PROBS.trait, 0⟩ rfl rfl⟩

end Heredity
